import Mathlib

/-!
Verification of the response-interpretation and safety-gating pipeline of the
`cmd-ai` CLI (source: `src/bin/ai.js`).  The JavaScript functions
`isDangerous`, `parseModelOutput`, `downloadLocalModel` and
`generateCommandLocal` are shallowly embedded below over `List Char`
(JavaScript strings), with the regular expressions used by the source
translated into explicit, executable matchers with the same semantics
(leftmost match, greedy/lazy backtracking order) for the concrete patterns
appearing in the source.
-/

set_option maxRecDepth 8000

namespace AiCli

/-! ## Character classes -/

/-- Embeds the JavaScript regex class `\s` (as used by `\s`, `String.trim`):
space, tab, line terminators and the Unicode space separators. -/
def jsWs (c : Char) : Bool :=
  let n := c.toNat
  n == 9 || n == 10 || n == 11 || n == 12 || n == 13 || n == 32 || n == 160 ||
  n == 5760 || (8192 ≤ n && n ≤ 8202) || n == 8232 || n == 8233 || n == 8239 ||
  n == 8287 || n == 12288 || n == 65279

/-- Embeds the JavaScript regex class `\w` = `[A-Za-z0-9_]`. -/
def isWordChar (c : Char) : Bool :=
  (97 ≤ c.toNat && c.toNat ≤ 122) || (65 ≤ c.toNat && c.toNat ≤ 90) ||
  (48 ≤ c.toNat && c.toNat ≤ 57) || c == '_'

/-- Embeds `String.prototype.toLowerCase` on the ASCII range (every string the
source compares against is ASCII). -/
def jsToLower (c : Char) : Char :=
  if 65 ≤ c.toNat && c.toNat ≤ 90 then Char.ofNat (c.toNat + 32) else c

/-! ## List utilities mirroring the JavaScript string operations -/

/-- Removes the maximal trailing run of characters satisfying `p`
(used for `.replace(/\\+$/, '')` and for the right half of `.trim()`). -/
def dropTrailing (p : Char → Bool) : List Char → List Char
  | [] => []
  | c :: rest =>
    let r := dropTrailing p rest
    if r.isEmpty && p c then [] else c :: r

/-- Embeds `String.prototype.trim` on a character list. -/
def jsTrimList (l : List Char) : List Char :=
  dropTrailing jsWs (l.dropWhile jsWs)

/-- Embeds `.replace(/\s+/g, ' ')`: every maximal whitespace run becomes one
space.  The flag records whether the previous character was whitespace. -/
def collapseWsAux : Bool → List Char → List Char
  | _, [] => []
  | prevWs, c :: rest =>
    if jsWs c then
      if prevWs then collapseWsAux true rest
      else ' ' :: collapseWsAux true rest
    else c :: collapseWsAux false rest

def collapseWs (l : List Char) : List Char := collapseWsAux false l

/-- Embeds `String.prototype.split('\n')`. -/
def splitLinesAux : List Char → List Char → List (List Char)
  | [], acc => [acc.reverse]
  | c :: rest, acc =>
    if c == '\n' then acc.reverse :: splitLinesAux rest []
    else splitLinesAux rest (c :: acc)

def splitLines (l : List Char) : List (List Char) := splitLinesAux l []

/-- Embeds `Array.prototype.join('\n')`. -/
def joinNL : List (List Char) → List Char
  | [] => []
  | [x] => x
  | x :: xs => x ++ '\n' :: joinNL xs

/-! ## Safety classifier (`isDangerous`, src/bin/ai.js lines 48-121) -/

/-- Embeds the normalisation in `isDangerous`:
`.toLowerCase().replace(/\s+/g,' ').replace(/\\+$/,'').replace(/\n/g,';')`. -/
def normalizeCmd (s : List Char) : List Char :=
  (dropTrailing (fun c => c == '\\') (collapseWs (s.map jsToLower))).map
    (fun c => if c == '\n' then ';' else c)

/-- A single-character separator of `.split(/;|&&|\|\||\(|\)|\{|\}/)`. -/
def singleSep (c : Char) : Bool :=
  c == ';' || c == '(' || c == ')' || c == '\x7b' || c == '\x7d'

/-- Embeds `.split(/;|&&|\|\||\(|\)|\{|\}/)`: scan left to right; a `;`, `(`,
`)`, `{`, `}` or a doubled `&&`/`||` ends the current segment.  `acc` holds
the current segment reversed; `pending` holds an `&` or `|` whose pairing
with the next character is still undecided (a lone `&` or `|` is ordinary
text). -/
def splitSepsAux : Option Char → List Char → List Char → List (List Char)
  | none, [], acc => [acc.reverse]
  | some p, [], acc => [(p :: acc).reverse]
  | none, c :: rest, acc =>
    if singleSep c then acc.reverse :: splitSepsAux none rest []
    else if c == '&' || c == '|' then splitSepsAux (some c) rest acc
    else splitSepsAux none rest (c :: acc)
  | some p, c :: rest, acc =>
    if c == p then acc.reverse :: splitSepsAux none rest []
    else if singleSep c then (p :: acc).reverse :: splitSepsAux none rest []
    else if c == '&' || c == '|' then splitSepsAux (some c) rest (p :: acc)
    else splitSepsAux none rest (c :: p :: acc)

def splitSeps (l : List Char) : List (List Char) := splitSepsAux none l []

/-- The blacklist of `isDangerous` (src/bin/ai.js lines 63-103), verbatim. -/
def blackListPatterns : List String :=
  ["rm -rf /",
   "rm -rf ~",
   "rm -rf .*",
   "rm -rf *",
   "rm --no-preserve-root",
   "rm -r --no-preserve-root /",
   "mkfs",
   "mkfs.ext4",
   "mkfs.xfs",
   "mkfs.vfat",
   "dd if=",
   "dd of=/dev/",
   ":()\x7b:|:&\x7d;:",
   ">:()",
   "shutdown",
   "reboot",
   "halt",
   "poweroff",
   "init 0",
   "init 6",
   "kill -9 1",
   "mv /",
   "chmod 000",
   "chmod -r 000 /",
   "chown root",
   "yes > /dev/",
   ">/dev/",
   "mount -o bind / /dev/null",
   "crontab -r",
   "echo .* >",
   "cat /dev/urandom >",
   "find / -exec rm",
   "find / -delete",
   "wipefs",
   "shred",
   "nohup .* >/dev/null 2>&1 &",
   "curl .* | sh",
   "wget .* | sh",
   "base64 -d <<< .* | sh"]

/-- The interpreter names of the pipe check regex
`/\s*\|\s*(sh|bash|zsh|csh|ksh|python|perl|ruby)\s*(-c|\s|$)/`. -/
def pipeNames : List String :=
  ["sh", "bash", "zsh", "csh", "ksh", "python", "perl", "ruby"]

/-- Embeds the tail `\s*(-c|\s|$)` of the pipe check regex: succeeds when the
remainder is empty, starts with `-c`, or starts with whitespace. -/
def pipeAfterOk (after : List Char) : Bool :=
  after.isEmpty || ['-', 'c'].isPrefixOf after ||
  (match after with
   | c :: _ => jsWs c
   | [] => false)

/-- Embeds a match of the pipe check regex starting at the head of `l`
(the leading `\s*` being nullable, a match exists somewhere iff one exists
starting at some `|`). -/
def pipeAt (l : List Char) : Bool :=
  match l with
  | [] => false
  | c :: rest =>
    c == '|' &&
    (let r := rest.dropWhile jsWs
     pipeNames.any fun nm => nm.data.isPrefixOf r && pipeAfterOk (r.drop nm.length))

/-- Embeds `RegExp.prototype.test` of the pipe check regex: a match starting
at some position. -/
def pipeScan : List Char → Bool
  | [] => false
  | c :: rest => pipeAt (c :: rest) || pipeScan rest

/-- Embeds `isDangerous` (src/bin/ai.js lines 48-121). -/
def isDangerous (command : String) : Bool :=
  let normalized := normalizeCmd command.data
  let subcommands := ((splitSeps normalized).map jsTrimList).filter
    (fun s => !s.isEmpty)
  if pipeScan normalized then true
  else subcommands.any fun sub =>
    blackListPatterns.any fun pattern => pattern.data.isPrefixOf sub

/-- The sub-statements `isDangerous` tests, as strings (its local
`subcommands`). -/
def subcommandsOf (command : String) : List String :=
  (((splitSeps (normalizeCmd command.data)).map jsTrimList).filter
    (fun s => !s.isEmpty)).map String.mk

/-- Modelled from the spec: `DangerVerdict { dangerous, matchedPattern }`.
The source's `isDangerous` returns only the boolean. -/
structure DangerVerdict where
  dangerous : Bool
  matchedPattern : Option String
deriving DecidableEq, Repr

/-- Modelled from the spec: the classifier as a `DangerVerdict` producer.
`dangerous` is computed exactly as in the source; `matchedPattern` reports
the first catalogue pattern the source's `subcommands.some`/`some` scan
matches (none for the pipe rule, which reports no pattern). -/
def dangerVerdictSpec (command : String) : DangerVerdict :=
  let normalized := normalizeCmd command.data
  let subcommands := ((splitSeps normalized).map jsTrimList).filter
    (fun s => !s.isEmpty)
  if pipeScan normalized then ⟨true, none⟩
  else
    match subcommands.findSome? (fun sub => blackListPatterns.findSome?
      (fun pattern => if pattern.data.isPrefixOf sub then some pattern else none)) with
    | some pattern => ⟨true, some pattern⟩
    | none => ⟨false, none⟩

/-- An input consisting only of whitespace and the separator tokens `;`,
`&&`, `||`, `(`, `)` and the braces (greedy tokenisation; a lone `&` or `|`
is not a token). -/
def sepOnlyAux : Option Char → List Char → Bool
  | none, [] => true
  | some _, [] => false
  | none, c :: rest =>
    if jsWs c || singleSep c then sepOnlyAux none rest
    else if c == '&' || c == '|' then sepOnlyAux (some c) rest
    else false
  | some p, c :: rest => if c == p then sepOnlyAux none rest else false

def sepOnly (l : List Char) : Bool := sepOnlyAux none l

/-! ## Character-class facts used by the classifier proofs -/

/-- A character of one of the separator tokens of the splitter. -/
def sepTokChar (c : Char) : Bool := singleSep c || c == '&' || c == '|'

/-- A whitespace or separator-token character. -/
def allowedChar (c : Char) : Bool := jsWs c || sepTokChar c

/-- The invariant of the pending argument of `splitSepsAux` / `sepOnlyAux`. -/
def PendInv (p : Option Char) : Prop := p = none ∨ p = some '&' ∨ p = some '|'

/-! ## Response parser (`parseModelOutput`, src/bin/ai.js lines 292-405) -/

/-- The fence delimiter of `/```(?:\w+)?\s*([\s\S]+?)```/`. -/
def fenceMark : List Char := ['\x60', '\x60', '\x60']

/-- Embeds a match attempt of the fenced-block regex right after an opening
fence: `(?:\w+)?` and `\s*` are greedy (longest first, backtracking), the
captured `([\s\S]+?)` is lazy (shortest first, at least one character),
followed by the closing fence.  Returns the first capture in the
backtracking engine's priority order. -/
def fenceTryAt (t : List Char) : Option (List Char) :=
  let wmax := (t.takeWhile isWordChar).length
  (List.range (wmax + 1)).reverse.findSome? fun wlen =>
    let t1 := t.drop wlen
    let smax := (t1.takeWhile jsWs).length
    (List.range (smax + 1)).reverse.findSome? fun slen =>
      let t2 := t1.drop slen
      ((List.range t2.length).map (fun n => n + 1)).findSome? fun glen =>
        if fenceMark.isPrefixOf (t2.drop glen) then some (t2.take glen) else none

/-- Embeds `String.prototype.match` of the fenced-block regex: leftmost
start position whose backtracking search succeeds; returns the match index
and the content of capture group 1. -/
def fencedFindAux : List Char → Nat → Option (Nat × List Char)
  | [], _ => none
  | c :: rest, i =>
    match (if fenceMark.isPrefixOf (c :: rest) then fenceTryAt (rest.drop 2) else none) with
    | some g => some (i, g)
    | none => fencedFindAux rest (i + 1)

def fencedFind (l : List Char) : Option (Nat × List Char) := fencedFindAux l 0

/-- The literal alternatives of the conversational-opener regex
(src/bin/ai.js lines 317-318 and 338-339), lower-case. -/
def conversationalOpeners : List String :=
  ["hi", "hello", "hey", "greetings", "i am", "i\x27m",
   "as a large language model", "i cannot", "i\x27m sorry", "i understand",
   "okay", "sure", "alright", "of course", "you can", "you could",
   "to do that", "here is", "here\x27s"]

/-- Embeds the `[^\s]+:` alternative of the conversational-opener regex on
the characters after the first: a `:` preceded only by non-whitespace. -/
def labelColonAux : List Char → Bool
  | [] => false
  | c :: rest => !jsWs c && (c == ':' || labelColonAux rest)

/-- Embeds the anchored `[^\s]+:` alternative: at least one non-whitespace
character followed by `:`. -/
def labelColon : List Char → Bool
  | [] => false
  | c :: rest => !jsWs c && labelColonAux rest

/-- Embeds `conversationalStarts.test` / `conversationalLineRegex.test`
(case-insensitive): the line starts with a conversational opener or with a
`label:` prefix. -/
def conversationalTest (l : List Char) : Bool :=
  let low := l.map jsToLower
  conversationalOpeners.any (fun s => s.data.isPrefixOf low) || labelColon low

/-- The character class `[>|!$%&*+,-./:;=?@^_~]` of `commandStartRegex`. -/
def shellSymbol (c : Char) : Bool :=
  c == '>' || c == '|' || c == '!' || c == '$' || c == '%' || c == '&' ||
  c == '*' || c == '+' || c == ',' || c == '-' || c == '.' || c == '/' ||
  c == ':' || c == ';' || c == '=' || c == '?' || c == '@' || c == '^' ||
  c == '_' || c == '~'

/-- Embeds `commandStartRegex.test` for
`/^[a-zA-Z0-9_-]+|^\.|\/|~|^[>|!$%&*+,-./:;=?@^_~]/`: the first three-of-five
alternatives are anchored (word character, `-`, `.`, or a shell symbol at the
start); the `\/` and `~` alternatives are NOT anchored in the source, so a
`/` or `~` anywhere in the line also matches. -/
def commandStartTest (l : List Char) : Bool :=
  (match l with
   | c :: _ => isWordChar c || c == '-' || c == '.' || shellSymbol c
   | [] => false)
  || l.contains '/' || l.contains '~'

/-- Embeds the loop of src/bin/ai.js lines 344-356: index of the first
non-empty line that looks like a command and not conversation. -/
def findFirstCmdLine : List (List Char) → Option Nat
  | [] => none
  | ln :: rest =>
    let t := jsTrimList ln
    if t.isEmpty then (findFirstCmdLine rest).map (· + 1)
    else if commandStartTest t && !conversationalTest t then some 0
    else (findFirstCmdLine rest).map (· + 1)

/-- The class of `.replace(/^['"`\s]+/,'').replace(/['"`\s]+$/,'')`. -/
def padChar (c : Char) : Bool :=
  c == '\x27' || c == '"' || c == '\x60' || jsWs c

/-- Embeds the quote/backtick/whitespace cleanup of the extracted command. -/
def cleanupCmd (l : List Char) : List Char :=
  dropTrailing padChar (l.dropWhile padChar)

/-- Embeds `.replace(/^\$\s+/,'')` (and with `#`, `.replace(/^#\s+/,'')`):
drop a leading prompt marker followed by whitespace. -/
def stripPrompt (mark : Char) (l : List Char) : List Char :=
  match l with
  | c :: d :: rest => if c == mark && jsWs d then (d :: rest).dropWhile jsWs else l
  | _ => l

/-- Embeds the fenced-branch explanation cleanup (src/bin/ai.js lines
316-332): keep non-blank lines up to the first conversational one, rejoin
and trim; empty result means no explanation. -/
def keepUntilConv : List (List Char) → List (List Char)
  | [] => []
  | ln :: rest =>
    if conversationalTest (jsTrimList ln) then [] else ln :: keepUntilConv rest

def cleanExplanation (e : List Char) : Option (List Char) :=
  let lines := (splitLines e).filter (fun ln => !(jsTrimList ln).isEmpty)
  let j := jsTrimList (joinNL (keepUntilConv lines))
  if j.isEmpty then none else some j

/-- Embeds `parseModelOutput` up to the final empty-command fallback:
fenced-block extraction, else line scan, else the full trimmed output.
The match index of the fenced regex is taken in the trimmed output but the
explanation is `output.substring(0, index)` of the untrimmed output, exactly
as in the source. -/
def parsePre (out : List Char) (explainMode : Bool) : Option (List Char) × List Char :=
  let trimmed := jsTrimList out
  match fencedFind trimmed with
  | some (idx, g) =>
    let command := cleanupCmd (jsTrimList g)
    let explanationPart := jsTrimList (out.take idx)
    ((if explanationPart.isEmpty then none else cleanExplanation explanationPart),
     command)
  | none =>
    let lines := splitLines out
    match findFirstCmdLine lines with
    | some i =>
      let command := stripPrompt '#' (stripPrompt '$'
        (cleanupCmd (jsTrimList (joinNL (lines.drop i)))))
      if explainMode then
        let e := jsTrimList (joinNL (lines.take i))
        ((if e.isEmpty then none else some e), command)
      else (none, command)
    | none => (none, trimmed)

/-- Embeds the final checks of `parseModelOutput` (src/bin/ai.js lines
389-404): an empty command falls back to the full trimmed output with no
explanation, and the explanation is trimmed once more. -/
def parseCore (out : List Char) (explainMode : Bool) : Option (List Char) × List Char :=
  let pre := parsePre out explainMode
  let step := if pre.2.isEmpty then (none, jsTrimList out) else pre
  (match step.1 with
   | none => none
   | some ex => if (jsTrimList ex).isEmpty then none else some (jsTrimList ex),
   step.2)

/-- The `{explanation, command}` record returned by `parseModelOutput`. -/
structure ParsedOutput where
  explanation : Option String
  command : String
deriving DecidableEq, Repr

/-- Embeds `parseModelOutput` (src/bin/ai.js lines 292-405). -/
def parseModelOutput (output : String) (explainMode : Bool) : ParsedOutput :=
  let r := parseCore output.data explainMode
  ⟨r.1.map String.mk, String.mk r.2⟩

/-! ## Local engine lifecycle (`downloadLocalModel` / `generateCommandLocal`,
src/bin/ai.js lines 257-289 and 408-459) -/

/-- The values of the module-level `localPipelineStatus`. -/
inductive EngineStatus
  | unloaded
  | loading
  | loaded
  | error
  | downloading
deriving DecidableEq, Repr

/-- The result of an awaited external operation (model download, pipeline
construction). -/
inductive Outcome
  | success
  | failure
deriving DecidableEq, Repr

/-- The distinct error conditions thrown by the lifecycle code. -/
inductive LocalError
  | alreadyInErrorState
  | downloadFailedWhileWaiting
  | downloadFailed
  | loadFailed
deriving DecidableEq, Repr

/-- Embeds `downloadLocalModel` (lines 257-289): an early return when the
status is `loaded`, `loading` or `downloading`; otherwise the status passes
through `downloading` and ends at `unloaded` on success (assets cached, the
pipeline object is not kept) or at `error` on failure, which also throws
`downloadFailed`.  Returns the final status and the thrown error, if any. -/
def downloadLocalModel (st : EngineStatus) (outcome : Outcome) :
    EngineStatus × Except LocalError Unit :=
  if st = .loaded || st = .loading || st = .downloading then (st, .ok ())
  else
    match outcome with
    | .success => (.unloaded, .ok ())
    | .failure => (.error, .error .downloadFailed)

/-- Embeds the status handling of `generateCommandLocal` (lines 408-459),
up to and including the pipeline load.  `pipelineLoaded` is whether the
module-level `localPipeline` is non-null; `afterWait` is the status observed
when the poll loop on `downloading` exits (the source loops while the status
is `downloading`, so the observed value is the completed download's result);
`loadOutcome` is the result of the pipeline construction when attempted.
Returns the final status, the final `pipelineLoaded`, and the thrown error,
if any. -/
def generateCommandLocal (st : EngineStatus) (pipelineLoaded : Bool)
    (afterWait : EngineStatus) (loadOutcome : Outcome) :
    EngineStatus × Bool × Except LocalError Unit :=
  if st = .error then (st, pipelineLoaded, .error .alreadyInErrorState)
  else if st = .downloading && afterWait = .error then
    (.error, pipelineLoaded, .error .downloadFailedWhileWaiting)
  else
    let st1 := if st = .downloading then afterWait else st
    if !pipelineLoaded then
      match loadOutcome with
      | .success => (.loaded, true, .ok ())
      | .failure => (.error, false, .error .loadFailed)
    else (st1, pipelineLoaded, .ok ())

/-! ## Helper lemmas -/

theorem splitLinesAux_ne_nil (l acc : List Char) : splitLinesAux l acc ≠ [] := by
  induction l generalizing acc with
  | nil => simp [splitLinesAux]
  | cons c rest ih =>
    simp only [splitLinesAux]
    split
    · simp
    · exact ih _

theorem joinNL_splitLinesAux (l acc : List Char) :
    joinNL (splitLinesAux l acc) = acc.reverse ++ l := by
  induction l generalizing acc with
  | nil => simp [splitLinesAux, joinNL]
  | cons c rest ih =>
    simp only [splitLinesAux]
    split
    · rename_i hc
      have hceq : c = '\n' := by simpa [beq_iff_eq] using hc
      subst hceq
      have h0 := ih ([] : List Char)
      cases hx : splitLinesAux rest [] with
      | nil => exact absurd hx (splitLinesAux_ne_nil rest [])
      | cons y ys =>
        rw [hx] at h0
        simp only [List.reverse_nil, List.nil_append] at h0
        show acc.reverse ++ '\n' :: joinNL (y :: ys) = acc.reverse ++ '\n' :: rest
        rw [h0]
    · rw [ih (c :: acc)]
      simp

theorem joinNL_splitLines (l : List Char) : joinNL (splitLines l) = l := by
  simpa using joinNL_splitLinesAux l []

theorem findSomeIsSomeEqAny {α β : Type} (l : List α) (f : α → Option β) (g : α → Bool)
    (h : ∀ x, (f x).isSome = g x) : (l.findSome? f).isSome = l.any g := by
  induction l with
  | nil => rfl
  | cons x xs ih =>
    rw [List.findSome?_cons, List.any_cons]
    cases hfx : f x with
    | some b => simp [← h x, hfx]
    | none => simp [← h x, hfx, ih]

theorem parseCoreExplNone (out : List Char) (em : Bool)
    (h : (parsePre out em).1 = none) : (parseCore out em).1 = none := by
  simp only [parseCore]
  by_cases hc : (parsePre out em).2.isEmpty = true
  · simp [hc]
  · simp [hc, h]

theorem parsePreNoFenceNoExplain (out : List Char)
    (h : fencedFind (jsTrimList out) = none) : (parsePre out false).1 = none := by
  simp only [parsePre, h]
  cases hf : findFirstCmdLine (splitLines out) <;> simp

theorem sepOnlyAux_chars : ∀ (l : List Char) (p : Option Char), PendInv p →
    sepOnlyAux p l = true → ∀ c ∈ l, allowedChar c = true := by
  intro l
  induction l with
  | nil => intro p hp h c hc; exact absurd hc (List.not_mem_nil c)
  | cons c rest ih =>
    intro p hp h d hd
    cases p with
    | none =>
      simp only [sepOnlyAux] at h
      rcases List.mem_cons.mp hd with rfl | hd'
      · by_cases h1 : (jsWs d || singleSep d) = true
        · simp [allowedChar, sepTokChar, Bool.or_eq_true] at h1 ⊢
          tauto
        · rw [if_neg h1] at h
          by_cases h2 : (d == '&' || d == '|') = true
          · simp [allowedChar, sepTokChar, Bool.or_eq_true] at h2 ⊢
            tauto
          · rw [if_neg h2] at h
            exact absurd h (by simp)
      · by_cases h1 : (jsWs c || singleSep c) = true
        · rw [if_pos h1] at h
          exact ih none (Or.inl rfl) h d hd'
        · rw [if_neg h1] at h
          by_cases h2 : (c == '&' || c == '|') = true
          · rw [if_pos h2] at h
            refine ih (some c) ?_ h d hd'
            rcases Bool.or_eq_true _ _ |>.mp h2 with h3 | h3
            · exact Or.inr (Or.inl (by rw [eq_of_beq h3]))
            · exact Or.inr (Or.inr (by rw [eq_of_beq h3]))
          · rw [if_neg h2] at h
            exact absurd h (by simp)
    | some q =>
      simp only [sepOnlyAux] at h
      by_cases h1 : (c == q) = true
      · rw [if_pos h1] at h
        rcases List.mem_cons.mp hd with rfl | hd'
        · have hcq : d = q := eq_of_beq h1
          rcases hp with h2 | h2 | h2
          · exact absurd h2 (by simp)
          · rw [hcq, Option.some.inj h2]
            decide
          · rw [hcq, Option.some.inj h2]
            decide
        · exact ih none (Or.inl rfl) h d hd'
      · rw [if_neg h1] at h
        exact absurd h (by simp)

theorem char_eq_iff_toNat (c d : Char) : c = d ↔ c.toNat = d.toNat := by
  constructor
  · intro h
    rw [h]
  · intro h
    exact Char.ext (UInt32.ext h)

theorem allowed_toLower_fix (c : Char) (h : allowedChar c = true) : jsToLower c = c := by
  unfold jsToLower
  rw [if_neg]
  intro hr
  simp only [Bool.and_eq_true, decide_eq_true_eq] at hr
  simp only [allowedChar, sepTokChar, singleSep, jsWs, Bool.or_eq_true, beq_iff_eq,
    Bool.and_eq_true, decide_eq_true_eq, char_eq_iff_toNat,
    show Char.toNat ';' = 59 from rfl, show Char.toNat '(' = 40 from rfl,
    show Char.toNat ')' = 41 from rfl, show Char.toNat '\x7b' = 123 from rfl,
    show Char.toNat '\x7d' = 125 from rfl, show Char.toNat '&' = 38 from rfl,
    show Char.toNat '|' = 124 from rfl] at h
  omega

theorem map_id_of_fix {l : List Char} {f : Char → Char}
    (h : ∀ c ∈ l, f c = c) : l.map f = l := by
  induction l with
  | nil => rfl
  | cons c rest ih =>
    simp only [List.map_cons, h c (List.mem_cons_self c rest),
      ih (fun d hd => h d (List.mem_cons_of_mem c hd))]

theorem collapseWsAux_mem (l : List Char) : ∀ (b : Bool) (c : Char),
    c ∈ collapseWsAux b l → c = ' ' ∨ (c ∈ l ∧ jsWs c = false) := by
  induction l with
  | nil => intro b c hc; exact absurd hc (List.not_mem_nil c)
  | cons d rest ih =>
    intro b c hc
    simp only [collapseWsAux] at hc
    by_cases hd : jsWs d = true
    · rw [if_pos hd] at hc
      by_cases hb : b = true
      · rw [if_pos hb] at hc
        rcases ih true c hc with h | h
        · exact Or.inl h
        · exact Or.inr ⟨List.mem_cons_of_mem d h.1, h.2⟩
      · rw [if_neg hb] at hc
        rcases List.mem_cons.mp hc with rfl | hc'
        · exact Or.inl rfl
        · rcases ih true c hc' with h | h
          · exact Or.inl h
          · exact Or.inr ⟨List.mem_cons_of_mem d h.1, h.2⟩
    · rw [if_neg hd] at hc
      rcases List.mem_cons.mp hc with rfl | hc'
      · exact Or.inr ⟨List.mem_cons_self c rest, by simpa using hd⟩
      · rcases ih false c hc' with h | h
        · exact Or.inl h
        · exact Or.inr ⟨List.mem_cons_of_mem d h.1, h.2⟩

theorem sepOnly_collapse : ∀ (l : List Char) (p : Option Char) (b : Bool), PendInv p →
    sepOnlyAux p l = true → sepOnlyAux p (collapseWsAux b l) = true := by
  intro l
  induction l with
  | nil =>
    intro p b _ h
    simpa [collapseWsAux] using h
  | cons c rest ih =>
    intro p b hp h
    cases p with
    | none =>
      simp only [sepOnlyAux] at h
      simp only [collapseWsAux]
      by_cases hws : jsWs c = true
      · have h' : sepOnlyAux none rest = true := by
          rw [if_pos (by simp [hws])] at h
          exact h
        rw [if_pos hws]
        by_cases hb : b = true
        · rw [if_pos hb]
          exact ih none true (Or.inl rfl) h'
        · rw [if_neg hb]
          have : sepOnlyAux none (collapseWsAux true rest) = true :=
            ih none true (Or.inl rfl) h'
          simp only [sepOnlyAux, if_pos (show (jsWs ' ' || singleSep ' ') = true by decide)]
          exact this
      · rw [if_neg hws]
        by_cases hsep : singleSep c = true
        · have h' : sepOnlyAux none rest = true := by
            rw [if_pos (by simp [hsep])] at h
            exact h
          simp only [sepOnlyAux, if_pos (show (jsWs c || singleSep c) = true by simp [hsep])]
          exact ih none false (Or.inl rfl) h'
        · have hcond : (jsWs c || singleSep c) = false := by simp [hws, hsep]
          rw [if_neg (by simp [hcond])] at h
          by_cases hor : (c == '&' || c == '|') = true
          · rw [if_pos hor] at h
            simp only [sepOnlyAux, if_neg (by simp [hcond] : ¬(jsWs c || singleSep c) = true),
              if_pos hor]
            refine ih (some c) false ?_ h
            rcases Bool.or_eq_true _ _ |>.mp hor with h3 | h3
            · exact Or.inr (Or.inl (by rw [eq_of_beq h3]))
            · exact Or.inr (Or.inr (by rw [eq_of_beq h3]))
          · rw [if_neg hor] at h
            exact absurd h (by simp)
    | some q =>
      have hq : jsWs q = false := by
        rcases hp with h2 | h2 | h2
        · exact absurd h2 (by simp)
        · rw [Option.some.inj h2]; decide
        · rw [Option.some.inj h2]; decide
      simp only [sepOnlyAux] at h
      by_cases h1 : (c == q) = true
      · have hc : c = q := eq_of_beq h1
        rw [if_pos h1] at h
        simp only [collapseWsAux, hc, if_neg (by simp [hq] : ¬jsWs q = true)]
        simp only [sepOnlyAux, if_pos (show (q == q) = true by simp)]
        exact ih none false (Or.inl rfl) h
      · rw [if_neg h1] at h
        exact absurd h (by simp)

theorem dropTrailing_id (p : Char → Bool) (l : List Char)
    (h : ∀ c ∈ l, p c = false) : dropTrailing p l = l := by
  induction l with
  | nil => rfl
  | cons c rest ih =>
    simp only [dropTrailing, ih (fun d hd => h d (List.mem_cons_of_mem c hd))]
    rw [if_neg]
    simp [h c (List.mem_cons_self c rest)]

theorem normalize_sepOnly (s : List Char) (h : sepOnly s = true) :
    normalizeCmd s = collapseWs s ∧ sepOnly (collapseWs s) = true := by
  have hchars : ∀ c ∈ s, allowedChar c = true := sepOnlyAux_chars s none (Or.inl rfl) h
  have hmap : s.map jsToLower = s :=
    map_id_of_fix (fun c hc => allowed_toLower_fix c (hchars c hc))
  have hcol : sepOnly (collapseWs s) = true := sepOnly_collapse s none false (Or.inl rfl) h
  have hcolchars : ∀ c ∈ collapseWs s, allowedChar c = true :=
    sepOnlyAux_chars _ none (Or.inl rfl) hcol
  have hbs : dropTrailing (fun c => c == '\\') (collapseWs s) = collapseWs s := by
    apply dropTrailing_id
    intro c hc
    cases hb : c == '\\' with
    | false => rfl
    | true =>
      have hcb : c = '\\' := eq_of_beq hb
      subst hcb
      exact absurd (hcolchars _ hc) (by decide)
  have hnl : (collapseWs s).map (fun c => if c == '\n' then ';' else c) = collapseWs s := by
    apply map_id_of_fix
    intro c hc
    rcases collapseWsAux_mem s false c hc with h1 | h1
    · subst h1
      rfl
    · have hne : (c == '\n') = false := by
        cases hb : c == '\n' with
        | false => rfl
        | true =>
          have hcb : c = '\n' := eq_of_beq hb
          subst hcb
          exact absurd h1.2 (by decide)
      simp [hne]
  refine ⟨?_, hcol⟩
  unfold normalizeCmd
  rw [show s.map jsToLower = s from hmap, show collapseWs s = collapseWsAux false s from rfl]
  rw [show collapseWsAux false s = collapseWs s from rfl, hbs, hnl]

theorem jsTrim_allWs (l : List Char) (h : ∀ c ∈ l, jsWs c = true) : jsTrimList l = [] := by
  unfold jsTrimList
  rw [List.dropWhile_eq_nil_iff.mpr h]
  rfl

theorem splitSeps_sepOnly_trim : ∀ (l : List Char) (p : Option Char) (acc : List Char),
    PendInv p → sepOnlyAux p l = true → (∀ c ∈ acc, jsWs c = true) →
    ∀ seg ∈ splitSepsAux p l acc, jsTrimList seg = [] := by
  intro l
  induction l with
  | nil =>
    intro p acc hp h hacc seg hseg
    cases p with
    | none =>
      simp only [splitSepsAux, List.mem_singleton] at hseg
      subst hseg
      exact jsTrim_allWs _ (fun c hc => hacc c (List.mem_reverse.mp hc))
    | some q => exact absurd h (by simp [sepOnlyAux])
  | cons c rest ih =>
    intro p acc hp h hacc seg hseg
    cases p with
    | none =>
      simp only [sepOnlyAux] at h
      simp only [splitSepsAux] at hseg
      by_cases hsep : singleSep c = true
      · rw [if_pos hsep] at hseg
        have h' : sepOnlyAux none rest = true := by
          rw [if_pos (by simp [hsep])] at h
          exact h
        rcases List.mem_cons.mp hseg with rfl | hseg'
        · exact jsTrim_allWs _ (fun d hd => hacc d (List.mem_reverse.mp hd))
        · exact ih none [] (Or.inl rfl) h' (by simp) seg hseg'
      · rw [if_neg hsep] at hseg
        by_cases hor : (c == '&' || c == '|') = true
        · rw [if_pos hor] at hseg
          have hws : jsWs c = false := by
            rcases Bool.or_eq_true _ _ |>.mp hor with h3 | h3 <;>
              rw [eq_of_beq h3] <;> decide
          have h' : sepOnlyAux (some c) rest = true := by
            rw [if_neg (by simp [hws, hsep]), if_pos hor] at h
            exact h
          refine ih (some c) acc ?_ h' hacc seg hseg
          rcases Bool.or_eq_true _ _ |>.mp hor with h3 | h3
          · exact Or.inr (Or.inl (by rw [eq_of_beq h3]))
          · exact Or.inr (Or.inr (by rw [eq_of_beq h3]))
        · rw [if_neg hor] at hseg
          by_cases hws : jsWs c = true
          · have h' : sepOnlyAux none rest = true := by
              rw [if_pos (by simp [hws])] at h
              exact h
            refine ih none (c :: acc) (Or.inl rfl) h' ?_ seg hseg
            intro d hd
            rcases List.mem_cons.mp hd with rfl | hd'
            · exact hws
            · exact hacc d hd'
          · rw [if_neg (by simp [hws, hsep]), if_neg hor] at h
            exact absurd h (by simp)
    | some q =>
      simp only [sepOnlyAux] at h
      by_cases h1 : (c == q) = true
      · rw [if_pos h1] at h
        simp only [splitSepsAux] at hseg
        have h1' : (c == q) = true := h1
        rw [if_pos h1'] at hseg
        rcases List.mem_cons.mp hseg with rfl | hseg'
        · exact jsTrim_allWs _ (fun d hd => hacc d (List.mem_reverse.mp hd))
        · exact ih none [] (Or.inl rfl) h (by simp) seg hseg'
      · rw [if_neg h1] at h
        exact absurd h (by simp)

theorem filterMapTrimEmpty (segs : List (List Char))
    (h : ∀ seg ∈ segs, jsTrimList seg = []) :
    (segs.map jsTrimList).filter (fun s => !s.isEmpty) = [] := by
  induction segs with
  | nil => rfl
  | cons seg rest ih =>
    simp only [List.map_cons, List.filter_cons, h seg (List.mem_cons_self seg rest)]
    simp only [List.isEmpty_nil, Bool.not_true, Bool.false_eq_true, if_false]
    exact ih (fun s hs => h s (List.mem_cons_of_mem seg hs))

theorem beq_false_of_allowed (c d : Char) (hc : allowedChar c = true)
    (hd : allowedChar d = false) : (d == c) = false := by
  cases hb : d == c with
  | false => rfl
  | true =>
    have hdc : d = c := eq_of_beq hb
    subst hdc
    exact absurd hc (by simp [hd])

theorem pipeScan_false : ∀ (l : List Char),
    (∀ c ∈ l, allowedChar c = true) → pipeScan l = false := by
  intro l
  induction l with
  | nil => intro _; rfl
  | cons c rest ih =>
    intro h
    simp only [pipeScan, Bool.or_eq_false_iff]
    refine ⟨?_, ih (fun d hd => h d (List.mem_cons_of_mem c hd))⟩
    simp only [pipeAt]
    by_cases hc : (c == '|') = true
    · rw [hc]
      simp only [Bool.true_and]
      cases hr : rest.dropWhile jsWs with
      | nil => decide
      | cons x r' =>
        have hx : allowedChar x = true :=
          h x (List.mem_cons_of_mem c
            ((List.dropWhile_sublist jsWs).mem (hr ▸ List.mem_cons_self x r')))
        have h1 : ('s' == x) = false := beq_false_of_allowed x 's' hx (by decide)
        have h2 : ('b' == x) = false := beq_false_of_allowed x 'b' hx (by decide)
        have h3 : ('z' == x) = false := beq_false_of_allowed x 'z' hx (by decide)
        have h4 : ('c' == x) = false := beq_false_of_allowed x 'c' hx (by decide)
        have h5 : ('k' == x) = false := beq_false_of_allowed x 'k' hx (by decide)
        have h6 : ('p' == x) = false := beq_false_of_allowed x 'p' hx (by decide)
        have h7 : ('r' == x) = false := beq_false_of_allowed x 'r' hx (by decide)
        simp [pipeNames, List.isPrefixOf, h1, h2, h3, h4, h5, h6, h7]
    · simp [hc]

theorem sepOnly_subcommands_nil (s : String) (h : sepOnly s.data = true) :
    ((splitSeps (normalizeCmd s.data)).map jsTrimList).filter (fun x => !x.isEmpty) = [] ∧
    pipeScan (normalizeCmd s.data) = false := by
  obtain ⟨hne, hcol⟩ := normalize_sepOnly s.data h
  rw [hne]
  constructor
  · exact filterMapTrimEmpty _ (splitSeps_sepOnly_trim (collapseWs s.data) none []
      (Or.inl rfl) hcol (by intro c hc; exact absurd hc (List.not_mem_nil c)))
  · exact pipeScan_false _ (sepOnlyAux_chars _ none (Or.inl rfl) hcol)

/-! ## Claim theorems -/

/-- C4: the source's own blacklist contains the fork-bomb signature
`:(){:|:&};:` (with comment "Fork bomb variants"), but splitting on
`( ) { } ;` makes that entry unmatchable: the classifier returns `false` on
the fork bomb while returning `true` on `rm -rf /`. -/
theorem c4_forkbomb_missed :
    isDangerous ":()\x7b:|:&\x7d;:" = false ∧
    isDangerous "rm -rf /" = true ∧
    ":()\x7b:|:&\x7d;:" ∈ blackListPatterns ∧
    subcommandsOf ":()\x7b:|:&\x7d;:" = [":", ":|:&", ":"] := by
  refine ⟨by decide, by decide, by decide, by decide⟩

/-- C6: the command-start regex's `\/` and `~` alternatives are unanchored
(contradicting the comment in the source), so the line `(see /tmp)`, which
begins with `(` — none of the claimed start characters — is selected as the
command start: the parser returns it alone, dropping the preceding
non-matching line, instead of falling back to the whole output. -/
theorem c6_unanchored_slash :
    parseModelOutput "\x27prose one\x27\n(see /tmp)" false = ⟨none, "(see /tmp)"⟩ ∧
    commandStartTest "(see /tmp)".data = true ∧
    (∀ c ∈ "(see /tmp)".data.head?, (isWordChar c || c == '-' || c == '.' ||
      shellSymbol c) = false) := by
  refine ⟨by decide, by decide, by decide⟩

/-- C1 counterexample: on the claim's own example input (no fenced block,
conversational refusal text) the parser does not fail: it returns the whole
line as a non-empty command.  Also, the parser returns an empty command for
whitespace-only input. -/
theorem c1_counterexample :
    parseModelOutput "I can\x27t help with that request." false =
      ⟨none, "I can\x27t help with that request."⟩ ∧
    parseModelOutput "   " false = ⟨none, ""⟩ := by
  refine ⟨by decide, by decide⟩

/-- C5 counterexample: with a fenced block whose inner text trims to the
empty string, the parser does not return the (empty) fenced content: the
final fallback returns the whole raw output, fences included. -/
theorem c5_counterexample :
    parseModelOutput "```sh\n \n```" false = ⟨none, "```sh\n \n```"⟩ ∧
    fencedFind (jsTrimList "```sh\n \n```".data) = some (0, ['\n']) := by
  refine ⟨by decide, by decide⟩

/-- C7 counterexample: with `explainMode = false` and a fenced block preceded
by prose, the parser returns a non-null explanation (the fenced branch never
consults `explainMode`; only the caller's printing is gated on it). -/
theorem c7_counterexample :
    (parseModelOutput "Use pwd\n```\npwd\n```" false).explanation = some "Use pwd" := by
  decide

/-- C9 counterexample: parsing is not idempotent on its own output.  The
fenced command `I cannot help\nls -la` re-parses (as raw unfenced text) to
its second line only, because its first line matches the
conversational-opener pattern. -/
theorem c9_counterexample :
    parseModelOutput "```\nI cannot help\nls -la\n```" false =
      ⟨none, "I cannot help\nls -la"⟩ ∧
    parseModelOutput "I cannot help\nls -la" false = ⟨none, "ls -la"⟩ := by
  refine ⟨by decide, by decide⟩

/-- C8: the local engine lifecycle.  From `unloaded`, a successful download
ends at `unloaded` and a subsequent successful load ends at exactly
`loaded`; a failure during download or load ends at exactly `error`
(throwing `downloadFailed` / `loadFailed`); from `error` every inference
request is rejected immediately with `alreadyInErrorState`, leaving the
state unchanged, while an explicit reconfiguration (`downloadLocalModel`)
does proceed from `error`; an inference request that observes `downloading`
waits and, if the awaited download ends in `error`, fails with the distinct
`downloadFailedWhileWaiting` without initiating another download, while a
download that ends at `unloaded` lets the request continue into a load. -/
theorem c8_lifecycle :
    downloadLocalModel .unloaded .success = (.unloaded, .ok ()) ∧
    downloadLocalModel .unloaded .failure = (.error, .error .downloadFailed) ∧
    (∀ aw, generateCommandLocal .unloaded false aw .success = (.loaded, true, .ok ())) ∧
    (∀ aw, generateCommandLocal .unloaded false aw .failure =
      (.error, false, .error .loadFailed)) ∧
    (∀ pl aw lo, generateCommandLocal .error pl aw lo =
      (.error, pl, .error .alreadyInErrorState)) ∧
    downloadLocalModel .error .success = (.unloaded, .ok ()) ∧
    downloadLocalModel .error .failure = (.error, .error .downloadFailed) ∧
    (∀ pl lo, generateCommandLocal .downloading pl .error lo =
      (.error, pl, .error .downloadFailedWhileWaiting)) ∧
    generateCommandLocal .downloading false .unloaded .success = (.loaded, true, .ok ()) ∧
    LocalError.downloadFailedWhileWaiting ≠ LocalError.downloadFailed ∧
    (∀ outcome, downloadLocalModel .downloading outcome = (.downloading, .ok ())) := by
  refine ⟨rfl, rfl, ?_, ?_, ?_, rfl, rfl, ?_, rfl, by decide, ?_⟩
  · intro aw; rfl
  · intro aw; rfl
  · intro pl aw lo; rfl
  · intro pl lo; rfl
  · intro outcome; rfl

/-- C1 amended: `parseModelOutput` never fails.  When no fenced block is
found and no line qualifies as a command start, it returns the whole
trimmed output as the command (with no explanation); and the returned
command is empty only when the raw output is whitespace-only. -/
theorem c1_no_candidates_full_output :
    (∀ (output : String) (em : Bool),
        fencedFind (jsTrimList output.data) = none →
        findFirstCmdLine (splitLines output.data) = none →
        parseModelOutput output em = ⟨none, String.mk (jsTrimList output.data)⟩) ∧
    (∀ (output : String) (em : Bool),
        (parseModelOutput output em).command = "" → jsTrimList output.data = []) := by
  constructor
  · intro output em h1 h2
    simp only [parseModelOutput, parseCore, parsePre, h1, h2, ite_self]
    rfl
  · intro output em h
    have hd := congrArg String.data h
    simp only [parseModelOutput, parseCore] at hd
    by_cases he : (parsePre output.data em).2.isEmpty = true
    · rw [if_pos he] at hd
      exact hd
    · rw [if_neg he] at hd
      exact absurd (List.isEmpty_iff.mpr hd) he

/-- Witness for C1 amended at the input `'hello'` (a line starting
with a quote matches no command-start alternative). -/
theorem c1_no_candidates_witness :
    fencedFind (jsTrimList "\x27hello\x27".data) = none ∧
    findFirstCmdLine (splitLines "\x27hello\x27".data) = none ∧
    parseModelOutput "\x27hello\x27" false =
      ⟨none, String.mk (jsTrimList "\x27hello\x27".data)⟩ :=
  ⟨by decide, by decide,
   c1_no_candidates_full_output.1 "\x27hello\x27" false (by decide) (by decide)⟩

/-- C2: the classifier flags a command dangerous iff some sub-statement of
the separator-split normalised text starts (prefix, not substring) with a
catalogue pattern, or the normalised command contains a pipe into a
shell/interpreter; consequently `echo 'shutdown -h now'`, whose destructive
token sits mid-argument, is not flagged. -/
theorem c2_prefix_or_pipe :
    (∀ cmd : String, isDangerous cmd = true ↔
      ((∃ sub ∈ subcommandsOf cmd, ∃ p ∈ blackListPatterns,
          p.data.isPrefixOf sub.data = true) ∨
       pipeScan (normalizeCmd cmd.data) = true)) ∧
    isDangerous "echo \x27shutdown -h now\x27" = false := by
  constructor
  · intro cmd
    by_cases h : pipeScan (normalizeCmd cmd.data) = true
    · simp [isDangerous, h]
    · simp only [isDangerous, h, if_false, Bool.false_eq_true]
      simp [List.any_eq_true, subcommandsOf, List.mem_map, h]
      constructor
      · rintro ⟨x, hx, hne, p, hp, hpre⟩
        exact ⟨jsTrimList x, ⟨⟨x, hx, rfl⟩, hne⟩, p, hp, hpre⟩
      · rintro ⟨a, ⟨⟨x, hx, rfl⟩, hne⟩, p, hp, hpre⟩
        exact ⟨x, hx, hne, p, hp, hpre⟩
  · decide

/-- C3: the spec-level `DangerVerdict` refines the source classifier: its
`dangerous` component equals `isDangerous` on every input, and on
`echo hi && rm -rf ~` the verdict is dangerous with `matchedPattern`
identifying the second sub-statement `rm -rf ~`. -/
theorem c3_danger_verdict :
    (∀ cmd : String, (dangerVerdictSpec cmd).dangerous = isDangerous cmd) ∧
    subcommandsOf "echo hi && rm -rf ~" = ["echo hi", "rm -rf ~"] ∧
    dangerVerdictSpec "echo hi && rm -rf ~" = ⟨true, some "rm -rf ~"⟩ := by
  refine ⟨?_, by decide, by decide⟩
  intro cmd
  unfold dangerVerdictSpec isDangerous
  by_cases h : pipeScan (normalizeCmd cmd.data) = true
  · simp [h]
  · simp only [h, if_false, Bool.false_eq_true]
    have key := findSomeIsSomeEqAny
      (((splitSeps (normalizeCmd cmd.data)).map jsTrimList).filter (fun s => !s.isEmpty))
      (fun sub => blackListPatterns.findSome?
        (fun pattern => if pattern.data.isPrefixOf sub then some pattern else none))
      (fun sub => blackListPatterns.any (fun pattern => pattern.data.isPrefixOf sub))
      (fun sub => findSomeIsSomeEqAny blackListPatterns _ _
        (fun p => by by_cases hp : p.data.isPrefixOf sub <;> simp [hp]))
    cases hm : (((splitSeps (normalizeCmd cmd.data)).map jsTrimList).filter
        (fun s => !s.isEmpty)).findSome? (fun sub => blackListPatterns.findSome?
        (fun pattern => if pattern.data.isPrefixOf sub then some pattern else none)) with
    | some pattern =>
      rw [hm] at key
      simp [← key]
    | none =>
      rw [hm] at key
      simp [← key]

/-- C5 amended: when the raw output contains a fenced block, the parser
returns exactly the cleaned inner text of the leftmost fence match —
provided that cleaned text is non-empty; the command then depends only on
the captured group, never on text outside the fence. -/
theorem c5_fenced_command :
    ∀ (output : String) (em : Bool) (idx : Nat) (g : List Char),
      fencedFind (jsTrimList output.data) = some (idx, g) →
      cleanupCmd (jsTrimList g) ≠ [] →
      (parseModelOutput output em).command = String.mk (cleanupCmd (jsTrimList g)) := by
  intro output em idx g h hne
  simp only [parseModelOutput, parseCore, parsePre, h]
  simp [List.isEmpty_iff, hne]

/-- Witness for C5 amended on a well-formed fenced reply. -/
theorem c5_fenced_command_witness :
    fencedFind (jsTrimList "```bash\nls\n```".data) = some (0, ['l', 's', '\n']) ∧
    cleanupCmd (jsTrimList ['l', 's', '\n']) ≠ [] ∧
    (parseModelOutput "```bash\nls\n```" false).command =
      String.mk (cleanupCmd (jsTrimList ['l', 's', '\n'])) :=
  ⟨by decide, by decide,
   c5_fenced_command "```bash\nls\n```" false 0 ['l', 's', '\n'] (by decide) (by decide)⟩

/-- C7 amended: in the no-fence path with `explainMode = false` the parser
returns no explanation; in the fenced path the whole parse result is
independent of `explainMode`, so prose before a fence becomes the
explanation even with `explainMode = false`. -/
theorem c7_explanation_modes :
    (∀ output : String, fencedFind (jsTrimList output.data) = none →
      (parseModelOutput output false).explanation = none) ∧
    (∀ (output : String) (em : Bool) (idx : Nat) (g : List Char),
      fencedFind (jsTrimList output.data) = some (idx, g) →
      parseModelOutput output em = parseModelOutput output false) := by
  constructor
  · intro output h
    have := parseCoreExplNone output.data false (parsePreNoFenceNoExplain output.data h)
    simp [parseModelOutput, this]
  · intro output em idx g h
    simp only [parseModelOutput, parseCore, parsePre, h]

/-- Witness for C7 amended: a plain command without a fence, and a fenced
reply parsed identically in both modes. -/
theorem c7_explanation_modes_witness :
    fencedFind (jsTrimList "ls".data) = none ∧
    (parseModelOutput "ls" false).explanation = none ∧
    fencedFind (jsTrimList "see\n```\nls\n```".data) = some (4, ['l', 's', '\n']) ∧
    parseModelOutput "see\n```\nls\n```" true = parseModelOutput "see\n```\nls\n```" false :=
  ⟨by decide, c7_explanation_modes.1 "ls" (by decide), by decide,
   c7_explanation_modes.2 "see\n```\nls\n```" true 4 ['l', 's', '\n'] (by decide)⟩

/-- C9 amended: re-parsing an extracted command returns it unchanged
whenever the command's own first line is selected as the command start
(index 0) and the command is already trimmed and free of padding and prompt
markers — as is the case for single-line extracted commands; a multi-line
command whose first line is conversational re-parses to a proper suffix
instead. -/
theorem c9_reparse_fixed_point :
    ∀ (c : String),
      c.data ≠ [] →
      fencedFind (jsTrimList c.data) = none →
      findFirstCmdLine (splitLines c.data) = some 0 →
      jsTrimList c.data = c.data →
      cleanupCmd c.data = c.data →
      stripPrompt '$' c.data = c.data →
      stripPrompt '#' c.data = c.data →
      parseModelOutput c false = ⟨none, c⟩ := by
  intro c h0 h1 h2 h3 h4 h5 h6
  rw [h3] at h1
  simp only [parseModelOutput, parseCore, parsePre, h3, h1, h2, Bool.false_eq_true, if_false,
    List.drop_zero, joinNL_splitLines, h4, h5, h6]
  simp [h0]

/-- Witness for C9 amended at the extracted command `ls -la`. -/
theorem c9_reparse_fixed_point_witness :
    "ls -la".data ≠ [] ∧
    fencedFind (jsTrimList "ls -la".data) = none ∧
    findFirstCmdLine (splitLines "ls -la".data) = some 0 ∧
    jsTrimList "ls -la".data = "ls -la".data ∧
    cleanupCmd "ls -la".data = "ls -la".data ∧
    stripPrompt '$' "ls -la".data = "ls -la".data ∧
    stripPrompt '#' "ls -la".data = "ls -la".data ∧
    parseModelOutput "ls -la" false = ⟨none, "ls -la"⟩ :=
  ⟨by decide, by decide, by decide, by decide, by decide, by decide, by decide,
   c9_reparse_fixed_point "ls -la" (by decide) (by decide) (by decide) (by decide)
     (by decide) (by decide) (by decide)⟩

/-- C10: for every input consisting only of whitespace and the separator
tokens `;`, `&&`, `||`, `(`, `)`, braces — the empty string included — the
classifier returns `dangerous = false` (it is a total function, so it
returns normally): every segment trims to empty and is dropped, and the
pipe-into-interpreter pattern cannot match. -/
theorem c10_separators_safe (s : String) (h : sepOnly s.data = true) :
    isDangerous s = false ∧ subcommandsOf s = [] ∧
    pipeScan (normalizeCmd s.data) = false := by
  obtain ⟨hsubs, hpipe⟩ := sepOnly_subcommands_nil s h
  refine ⟨?_, ?_, hpipe⟩
  · unfold isDangerous
    simp [hsubs, hpipe]
  · unfold subcommandsOf
    rw [hsubs]
    rfl

/-- Witness for C10 at a concrete separators-and-whitespace input. -/
theorem c10_separators_safe_witness :
    sepOnly " ; && || ( ) ".data = true ∧
    isDangerous " ; && || ( ) " = false ∧
    subcommandsOf " ; && || ( ) " = [] ∧
    pipeScan (normalizeCmd " ; && || ( ) ".data) = false :=
  ⟨by decide,
   (c10_separators_safe " ; && || ( ) " (by decide)).1,
   (c10_separators_safe " ; && || ( ) " (by decide)).2.1,
   (c10_separators_safe " ; && || ( ) " (by decide)).2.2⟩

end AiCli
